import Mathlib

/-!
Verification of the menu composition subsystem (MenuParser / MenuManager).

The data model and operations below are shallow embeddings of
`src/api/parsers/MenuParser.ts` and `src/api/managers/MenuManager.ts`.
The TypeScript code mutates a shared array in place; the embedding passes
the registry state (`List MenuNode`) explicitly and returns the new state.
`console.error` calls (duplicate-registration conflicts) are modelled by a
conflict counter returned alongside the state.
-/

namespace Whide

/-- `PluginInfo` is an opaque identity token (spec §6); modelled as `String`. -/
abbrev PluginInfo := String

/-- The `Menu` / `MenuItem` union from `MenuParser.ts`:
`Menu = {name, children}`, `MenuItem = {name, command, plugin}`.
`plugin` is `none` until the parser's stamping pass sets it. -/
inductive MenuNode where
  | menu (name : String) (children : List MenuNode)
  | item (name : String) (command : String) (plugin : Option PluginInfo)

mutual
/-- Decidable structural equality for `MenuNode` (the nested inductive blocks
the automatic derivation). -/
def menuNodeDecEq : (a b : MenuNode) → Decidable (a = b)
  | .menu n cs, .menu n' cs' =>
    match decEq n n', menuForestDecEq cs cs' with
    | isTrue h1, isTrue h2 => isTrue (by rw [h1, h2])
    | isFalse h1, _ => isFalse (fun h => by cases h; exact h1 rfl)
    | _, isFalse h2 => isFalse (fun h => by cases h; exact h2 rfl)
  | .menu _ _, .item _ _ _ => isFalse nofun
  | .item _ _ _, .menu _ _ => isFalse nofun
  | .item n c p, .item n' c' p' =>
    match decEq n n', decEq c c', decEq p p' with
    | isTrue h1, isTrue h2, isTrue h3 => isTrue (by rw [h1, h2, h3])
    | isFalse h1, _, _ => isFalse (fun h => by cases h; exact h1 rfl)
    | _, isFalse h2, _ => isFalse (fun h => by cases h; exact h2 rfl)
    | _, _, isFalse h3 => isFalse (fun h => by cases h; exact h3 rfl)

/-- Decidable structural equality for forests. -/
def menuForestDecEq : (a b : List MenuNode) → Decidable (a = b)
  | [], [] => isTrue rfl
  | [], _ :: _ => isFalse nofun
  | _ :: _, [] => isFalse nofun
  | a :: as, b :: bs =>
    match menuNodeDecEq a b, menuForestDecEq as bs with
    | isTrue h1, isTrue h2 => isTrue (by rw [h1, h2])
    | isFalse h1, _ => isFalse (fun h => by cases h; exact h1 rfl)
    | _, isFalse h2 => isFalse (fun h => by cases h; exact h2 rfl)
end

instance : DecidableEq MenuNode := menuNodeDecEq

/-- The `name` field common to both variants. -/
def nodeName : MenuNode → String
  | .menu n _ => n
  | .item n _ _ => n

/-- `MenuManager._isMenu`: `!!(itm as Menu).children`.  On well-typed data a
`Menu` always has a `children` array (truthy, even when empty) and a
`MenuItem` has none (undefined, falsy), so this is the variant test. -/
def isMenu : MenuNode → Bool
  | .menu _ _ => true
  | .item _ _ _ => false

/-- The find loop of `_registerMenu` (lines 54-61): left-to-right search of
`existing_menus` for the first node that is a Menu and has the given name;
returns its `children`. -/
def findMenuChildren : List MenuNode → String → Option (List MenuNode)
  | [], _ => none
  | itm :: rest, n =>
    if isMenu itm && nodeName itm == n then
      match itm with
      | .menu _ cs => some cs
      | .item _ _ _ => none
    else findMenuChildren rest n

/-- In-place mutation of the found menu's `children`: replace the children of
the first Menu named `n` (the same node `findMenuChildren` locates). -/
def setFirstMenuChildren : List MenuNode → String → List MenuNode → List MenuNode
  | [], _, _ => []
  | itm :: rest, n, d =>
    if isMenu itm && nodeName itm == n then
      (match itm with
       | .menu nm _ => MenuNode.menu nm d
       | .item nm c p => MenuNode.item nm c p) :: rest
    else itm :: setFirstMenuChildren rest n d

/-- `MenuManager._registerMenuItem` (lines 88-102).  The conflict scan is
embedded verbatim: the source tests `itm.name === new_item.name &&
!MenuManager._isMenu(new_item)` — note `new_item`, not `itm` — so any
same-named existing node (Menu or MenuItem) counts as found.  A conflict
(`console.error`) is returned as count 1, and the item is discarded;
otherwise the item is pushed.  -/
def registerMenuItem (existing_menus : List MenuNode) (new_item : MenuNode) :
    List MenuNode × Nat :=
  let found := existing_menus.any
    (fun itm => nodeName itm == nodeName new_item && !isMenu new_item)
  if found then (existing_menus, 1)
  else (existing_menus ++ [new_item], 0)

mutual
/-- `MenuManager._registerMenu` (lines 52-80), with the incoming `Menu`
destructured into its `name` and `children`: find (or create and append) the
same-named Menu, then merge each incoming child into its children. -/
def registerMenu (existing_menus : List MenuNode) (name : String)
    (children : List MenuNode) : List MenuNode × Nat :=
  match findMenuChildren existing_menus name with
  | some cs =>
    let r := registerNodes cs children
    (setFirstMenuChildren existing_menus name r.1, r.2)
  | none =>
    let r := registerNodes [] children
    (existing_menus ++ [MenuNode.menu name r.1], r.2)

/-- The merge loop of `_registerMenu` (lines 72-79): each node is dispatched
on `_isMenu` to `_registerMenu` or `_registerMenuItem`.  With a list of
top-level Menus this is also the host's sequence of `register` calls. -/
def registerNodes (existing_menus : List MenuNode) :
    List MenuNode → List MenuNode × Nat
  | [] => (existing_menus, 0)
  | .menu n cs :: rest =>
    let r1 := registerMenu existing_menus n cs
    let r2 := registerNodes r1.1 rest
    (r2.1, r1.2 + r2.2)
  | .item n c p :: rest =>
    let r1 := registerMenuItem existing_menus (.item n c p)
    let r2 := registerNodes r1.1 rest
    (r2.1, r1.2 + r2.2)
end

/-- `MenuManager.register` (lines 24-26): `_registerMenu(this._menus, menu)`. -/
def register (menus : List MenuNode) (name : String)
    (children : List MenuNode) : List MenuNode × Nat :=
  registerMenu menus name children

/-- `MenuManager._unregisterMenu` (lines 110-112): the body is only
`//TODO: Unregister menus` — it performs no mutation at all. -/
def unregisterMenu (existing_menus : List MenuNode) (_new_item : MenuNode) :
    List MenuNode :=
  existing_menus

/-- `MenuManager.unregister` (lines 32-34): `_unregisterMenu(this._menus, menu)`. -/
def unregister (menus : List MenuNode) (m : MenuNode) : List MenuNode :=
  unregisterMenu menus m

mutual
/-- Number of `MenuItem` leaves in a node, at any depth. -/
def itemCountN : MenuNode → Nat
  | .menu _ cs => itemCountL cs
  | .item _ _ _ => 1

/-- Number of `MenuItem` leaves in a forest, at any depth. -/
def itemCountL : List MenuNode → Nat
  | [] => 0
  | m :: rest => itemCountN m + itemCountL rest
end

/-! ### MenuParser.ts -/

/-- The whitespace class of the JavaScript regex `\s` (used by
`s.replace(/\s+/g, '')` in `_getError`). -/
def jsWhitespace (c : Char) : Bool :=
  c = ' ' || c = '\t' || c = '\n' || c = '\r' || c = '\x0b' || c = '\x0c' ||
  c = '\u00a0' || c = '\u1680' ||
  ('\u2000' ≤ c && c ≤ '\u200a') ||
  c = '\u2028' || c = '\u2029' || c = '\u202f' || c = '\u205f' ||
  c = '\u3000' || c = '\ufeff'

/-- `s.replace(/\s+/g, '')`: the string with every whitespace character removed. -/
def stripWs (s : String) : String :=
  String.mk (s.data.filter (fun c => !jsWhitespace c))

/-- The local `isEmpty` of `_getError` (line 21):
`(s) => !!s && !!(s.replace(/\s+/g, ''))`.  Despite its name it tests
NON-emptiness: it is `true` iff `s` contains a non-whitespace character. -/
def isEmpty (s : String) : Bool :=
  (s != "") && (stripWs s != "")

mutual
/-- One node of the validation traversal: `_menuForEach` (lines 59-75)
specialised to the two callbacks of `_getError` (lines 25-46).  A Menu's own
name is checked before its children are traversed; a MenuItem's name is
checked before its command; the traversal stops at the first failure, whose
message (the mutable `errorMsg`) is returned. -/
def getErrorN : MenuNode → Option String
  | .menu n cs =>
    if !isEmpty n then some "Menus must be named" else getErrorL cs
  | .item n c _ =>
    if !isEmpty n then some "Menu items must be named"
    else if !isEmpty c then some "Menu items must have a command"
    else none

/-- The list part of the validation traversal (the `for` loop of
`_menuForEach`). -/
def getErrorL : List MenuNode → Option String
  | [] => none
  | m :: rest =>
    match getErrorN m with
    | some e => some e
    | none => getErrorL rest
end

/-- `_getError` (lines 19-50): `none` plays the role of the `false`
("valid") return value; otherwise the first error message found. -/
def getError (menus : List MenuNode) : Option String := getErrorL menus

mutual
/-- The plugin-stamping pass of `parse` (lines 96-100): `_menuForEach` with
`(m: MenuItem) => { m.plugin = pluginInfo; }`, which recurses through every
Menu and overwrites every MenuItem's `plugin`, never stopping early. -/
def stampN (p : PluginInfo) : MenuNode → MenuNode
  | .menu n cs => .menu n (stampL p cs)
  | .item n c _ => .item n c (some p)

/-- The stamping pass over a sibling list. -/
def stampL (p : PluginInfo) : List MenuNode → List MenuNode
  | [] => []
  | m :: rest => stampN p m :: stampL p rest
end

/-- `parse` (lines 82-104) from the point where deserialization has produced a
well-typed `Menu[]` value: validate via `_getError`, throwing the SchemaError
`Invalid menus: ...` with `_getError`'s message, then stamp every MenuItem
with `pluginInfo` and return the forest.  (The deserialization step itself,
`JSON.parse`, is modelled separately below by `jsParse`.) -/
def parseMenus (menus : List MenuNode) (pluginInfo : PluginInfo) :
    Except String (List MenuNode) :=
  match getError menus with
  | some e => .error e
  | none => .ok (stampL pluginInfo menus)

/-! ### Specification-side definitions

These follow the spec's words (not the source) and are used to state the
claims that compare the code against the spec's description. -/

/-- Spec §3: a name is "empty" when it is empty or whitespace-only. -/
def blankStr (s : String) : Bool := s.data.all jsWhitespace

/-- The three schema rules of spec §3 that a node can violate. -/
inductive SchemaViolation where
  | unnamedMenu
  | unnamedItem
  | itemWithoutCommand
deriving DecidableEq

/-- The human-readable description the parser attaches to each rule. -/
def violationMsg : SchemaViolation → String
  | .unnamedMenu => "Menus must be named"
  | .unnamedItem => "Menu items must be named"
  | .itemWithoutCommand => "Menu items must have a command"

mutual
/-- Follows the spec's words (§4.1): the schema violations of one node, in
depth-first left-to-right order — a node's own violations (name before
command) precede its children's. -/
def specViolationsN : MenuNode → List SchemaViolation
  | .menu n cs =>
    (if blankStr n then [SchemaViolation.unnamedMenu] else []) ++ specViolationsL cs
  | .item n c _ =>
    (if blankStr n then [SchemaViolation.unnamedItem] else []) ++
    (if blankStr c then [SchemaViolation.itemWithoutCommand] else [])

/-- Follows the spec's words: violations of a forest, left to right. -/
def specViolationsL : List MenuNode → List SchemaViolation
  | [] => []
  | m :: rest => specViolationsN m ++ specViolationsL rest
end

mutual
/-- Every MenuItem at any depth of the node carries `plugin = some p`. -/
def allStampedN (p : PluginInfo) : MenuNode → Bool
  | .menu _ cs => allStampedL p cs
  | .item _ _ pl => pl == some p

/-- Every MenuItem at any depth of the forest carries `plugin = some p`. -/
def allStampedL (p : PluginInfo) : List MenuNode → Bool
  | [] => true
  | m :: rest => allStampedN p m && allStampedL p rest
end

/-- The names of all nodes of a sibling list (in order). -/
def topNames (L : List MenuNode) : List String := L.map nodeName

/-- The names of the Menus of a sibling list. -/
def menuNames (L : List MenuNode) : List String :=
  (L.filter (fun m => isMenu m)).map nodeName

/-- The names of the MenuItems of a sibling list. -/
def itemNames (L : List MenuNode) : List String :=
  (L.filter (fun m => !isMenu m)).map nodeName

mutual
/-- All names occurring anywhere in a node (its own and its descendants'). -/
def allNamesN : MenuNode → List String
  | .menu n cs => n :: allNamesL cs
  | .item n _ _ => [n]

/-- All names occurring anywhere in a forest. -/
def allNamesL : List MenuNode → List String
  | [] => []
  | m :: rest => allNamesN m ++ allNamesL rest
end

/-- `noDup l` is true when no element occurs twice in `l`. -/
def noDup : List String → Bool
  | [] => true
  | x :: xs => !(decide (x ∈ xs)) && noDup xs

mutual
/-- The sibling-uniqueness invariant of spec §3 for a single node: its
children's sibling lists (at every depth) each hold at most one Menu and at
most one MenuItem per name. -/
def invN : MenuNode → Bool
  | .menu _ cs => invL cs
  | .item _ _ _ => true
termination_by m => (sizeOf m, 0)

/-- Each member of the list satisfies `invN`. -/
def invEach : List MenuNode → Bool
  | [] => true
  | m :: rest => invN m && invEach rest
termination_by L => (sizeOf L, 0)

/-- The sibling-uniqueness invariant for a forest: this sibling list has no
duplicate Menu name and no duplicate MenuItem name, and so does every
sibling list below it. -/
def invL (L : List MenuNode) : Bool :=
  noDup (menuNames L) && noDup (itemNames L) && invEach L
termination_by (sizeOf L, 1)
end

/-- A sibling list reachable inside a forest: the top-level list itself, or
the `children` of any reachable Menu. -/
inductive SiblingList : List MenuNode → List MenuNode → Prop where
  | top (r : List MenuNode) : SiblingList r r
  | child {r L : List MenuNode} {n : String} {cs : List MenuNode} :
      SiblingList r L → MenuNode.menu n cs ∈ L → SiblingList r cs

/-- Registering a list of parsed top-level Menus one after another, as the
host does (spec §2: the parser's output is passed to `register` per plugin);
for a list of Menus this coincides with `registerNodes`.  Also folds a whole
sequence of contributions. -/
def registerAll (r : List MenuNode) (Fs : List (List MenuNode)) : List MenuNode :=
  Fs.foldl (fun acc F => (registerNodes acc F).1) r

/-! ### The JSON layer: deserialization and raw-value behaviour of `parse`

`parse` receives a string and calls `JSON.parse` on it (line 86); only the
result of that call matters to the rest of the function, so the embedding
takes the deserialized value directly: `none` stands for a string that is
not valid JSON (`JSON.parse` throws, caught and rethrown as `JSON in
invalid format` — the FormatError), `some j` for a string deserializing to
the JSON value `j`.  `JSON.parse` performs no shape validation, so the
subsequent passes run on the raw value with JavaScript dynamic semantics,
embedded below. -/

/-- A JSON value as produced by `JSON.parse` (numbers collapsed to `Int`;
no value of this type is `undefined`, which `JSON.parse` never produces). -/
inductive Json where
  | null
  | bool (b : Bool)
  | num (n : Int)
  | str (s : String)
  | arr (elems : List Json)
  | obj (fields : List (String × Json))

/-- JavaScript truthiness of a JSON value. -/
def Json.truthy : Json → Bool
  | .null => false
  | .bool b => b
  | .num n => n != 0
  | .str s => s != ""
  | .arr _ => true
  | .obj _ => true

/-- Field lookup on a JSON object's field list (`JSON.parse` keeps one entry
per key). -/
def lookupField : List (String × Json) → String → Option Json
  | [], _ => none
  | (k, v) :: rest, key => if k = key then some v else lookupField rest key

/-- JavaScript property access `m.k` for the schema's keys (`name`,
`children`, `command`, `plugin`): a TypeError (`error ()`) on `null`, the
field or `undefined` (`none`) on an object, and `undefined` on any other
value (primitives and arrays have no own property with these names). -/
def getProp : Json → String → Except Unit (Option Json)
  | .null, _ => .error ()
  | .obj fs, k => .ok (lookupField fs k)
  | _, _ => .ok none

/-- `_getError`'s local `isEmpty` applied to a raw value (the payload need
not put strings in `name`/`command`): `!!s &&` short-circuits to `false` on
falsy values (including `undefined`); on a truthy string the replace runs;
`.replace` on any other truthy value is a TypeError. -/
def jsIsEmpty : Option Json → Except Unit Bool
  | none => .ok false
  | some v =>
    if !v.truthy then .ok false
    else
      match v with
      | .str s => .ok (stripWs s != "")
      | _ => .error ()

/-- What the loop body of `_menuForEach` does with one raw element: stop
with a violation message, continue (`done none`), or — when the element has
a truthy `children` property and its name check passed — descend into that
`children` value. -/
inductive ElemStep where
  | done (violation : Option String)
  | descend (children : Json)

/-- The MenuItem callback of `_getError` (lines 35-45) on a raw element:
name check first, then command check. -/
def jsItemCheck (m : Json) : Except Unit ElemStep :=
  match getProp m "name" with
  | .error () => .error ()
  | .ok nameV =>
    match jsIsEmpty nameV with
    | .error () => .error ()
    | .ok ne =>
      if !ne then .ok (.done (some "Menu items must be named"))
      else
        match getProp m "command" with
        | .error () => .error ()
        | .ok cmdV =>
          match jsIsEmpty cmdV with
          | .error () => .error ()
          | .ok ce =>
            if !ce then .ok (.done (some "Menu items must have a command"))
            else .ok (.done none)

/-- The dispatch of `_menuForEach` (line 64) with `_getError`'s callbacks on
one raw element: `(<Menu>m).children` truthy selects the Menu branch (name
check, then descend); otherwise the MenuItem branch runs. -/
def jsCheckElem (m : Json) : Except Unit ElemStep :=
  match getProp m "children" with
  | .error () => .error ()
  | .ok (some c) =>
    if c.truthy then
      match getProp m "name" with
      | .error () => .error ()
      | .ok nameV =>
        match jsIsEmpty nameV with
        | .error () => .error ()
        | .ok ne =>
          if !ne then .ok (.done (some "Menus must be named"))
          else .ok (.descend c)
    else jsItemCheck m
  | .ok none => jsItemCheck m

/-- `lookupField` only returns a component of the field list. -/
theorem lookupField_sizeOf {fs : List (String × Json)} {k : String} {v : Json}
    (h : lookupField fs k = some v) : sizeOf v < 1 + sizeOf fs := by
  induction fs with
  | nil => simp [lookupField] at h
  | cons kv rest ih =>
    obtain ⟨k', v'⟩ := kv
    by_cases hk : k' = k
    · simp only [lookupField, if_pos hk] at h
      cases h
      simp
      omega
    · simp only [lookupField, if_neg hk] at h
      have := ih h
      simp
      omega

/-- A property read off a value is structurally smaller than the value. -/
theorem getProp_sizeOf {m c : Json} {k : String}
    (h : getProp m k = .ok (some c)) : sizeOf c < sizeOf m := by
  cases m <;> simp [getProp] at h
  case obj fs =>
    have := lookupField_sizeOf h
    simp
    omega

/-- The MenuItem branch never descends. -/
theorem jsItemCheck_no_descend {m c : Json} :
    jsItemCheck m ≠ .ok (.descend c) := by
  unfold jsItemCheck
  repeat' split
  all_goals simp

/-- A `descend` step carries the element's own `children` value, which is
structurally smaller (used for termination of the traversals). -/
theorem jsCheckElem_descend_sizeOf {m c : Json}
    (h : jsCheckElem m = .ok (.descend c)) : sizeOf c < sizeOf m := by
  unfold jsCheckElem at h
  split at h
  · exact absurd h (by simp)
  case _ c' heq =>
    split at h
    · repeat' split at h
      all_goals simp_all
      cases h
      exact getProp_sizeOf heq
    · exact absurd h jsItemCheck_no_descend
  · exact absurd h jsItemCheck_no_descend

mutual
/-- `_getError`'s traversal (lines 25-46 via `_menuForEach`) on the raw
deserialized value: `for (let m of menus)` iterates an array's elements or a
string's characters (each a one-character string) and is a TypeError on any
other value. -/
def jsValidateTop : Json → Except Unit (Option String)
  | .arr xs => jsValidateList xs
  | .str s => jsValidateChars s.data
  | _ => .error ()
termination_by j => sizeOf j

/-- The validation loop over raw elements, stopping at the first violation
(the mutable `errorMsg`) or propagating a TypeError. -/
def jsValidateList : List Json → Except Unit (Option String)
  | [] => .ok none
  | m :: rest =>
    match h : jsCheckElem m with
    | .error () => .error ()
    | .ok (.done (some msg)) => .ok (some msg)
    | .ok (.done none) => jsValidateList rest
    | .ok (.descend c) =>
      match jsValidateTop c with
      | .error () => .error ()
      | .ok (some msg) => .ok (some msg)
      | .ok none => jsValidateList rest
termination_by l => sizeOf l
decreasing_by
  all_goals simp
  have := jsCheckElem_descend_sizeOf h
  omega

/-- Iterating the characters of a string: each element is a one-character
string, which has no `children` property (so the MenuItem branch runs) and
no `name` property (so the missing-name violation fires at once).  The
`descend` case cannot arise for a string element; it is mapped to a
TypeError. -/
def jsValidateChars : List Char → Except Unit (Option String)
  | [] => .ok none
  | c :: rest =>
    match jsCheckElem (.str (String.singleton c)) with
    | .error () => .error ()
    | .ok (.done (some msg)) => .ok (some msg)
    | .ok (.done none) => jsValidateChars rest
    | .ok (.descend _) => .error ()
termination_by l => sizeOf l
end

/-- JS object field assignment `m.k = v`: overwrite the existing field or
append a new one (insertion order). -/
def setField : List (String × Json) → String → Json → List (String × Json)
  | [], k, v => [(k, v)]
  | (k', v') :: rest, k, v =>
    if k' = k then (k, v) :: rest else (k', v') :: setField rest k v

/-- The item branch of the stamping pass: `m.plugin = pluginInfo`.  On an
object the field is written; on an array the assignment succeeds in JS
(arrays are objects — the expando property falls outside the model and is
dropped); on `null` or a primitive it is a strict-mode TypeError. -/
def jsAssignPlugin (p : PluginInfo) : Json → Except Unit Json
  | .obj fs => .ok (.obj (setField fs "plugin" (.str p)))
  | .arr ys => .ok (.arr ys)
  | _ => .error ()

mutual
/-- The stamping pass of `parse` (lines 96-100) on the raw value: the same
`_menuForEach` traversal, with a no-op Menu callback and the `m.plugin =
pluginInfo` MenuItem callback.  A nonempty string iterates to a primitive
element whose assignment is a TypeError; the empty string iterates nothing
and is returned unchanged. -/
def jsStampTop (p : PluginInfo) : Json → Except Unit Json
  | .arr xs =>
    (match jsStampList p xs with
     | .error () => .error ()
     | .ok xs' => .ok (.arr xs'))
  | .str s =>
    (match s.data with
     | [] => .ok (.str s)
     | _ :: _ => .error ())
  | _ => .error ()
termination_by j => sizeOf j

/-- The stamping loop over raw elements: a truthy `children` property means
recurse (the element keeps its identity, its `children` field now holding
the mutated array); otherwise assign `plugin`. -/
def jsStampList (p : PluginInfo) : List Json → Except Unit (List Json)
  | [] => .ok []
  | m :: rest =>
    match h : getProp m "children" with
    | .error () => .error ()
    | .ok (some c) =>
      if c.truthy then
        match jsStampTop p c with
        | .error () => .error ()
        | .ok c' =>
          let m' := match m with
            | .obj fs => Json.obj (setField fs "children" c')
            | other => other
          (match jsStampList p rest with
           | .error () => .error ()
           | .ok rest' => .ok (m' :: rest'))
      else
        (match jsAssignPlugin p m with
         | .error () => .error ()
         | .ok m' =>
           match jsStampList p rest with
           | .error () => .error ()
           | .ok rest' => .ok (m' :: rest'))
    | .ok none =>
      (match jsAssignPlugin p m with
       | .error () => .error ()
       | .ok m' =>
         match jsStampList p rest with
         | .error () => .error ()
         | .ok rest' => .ok (m' :: rest'))
termination_by l => sizeOf l
decreasing_by
  all_goals simp
  have := getProp_sizeOf h
  omega
end

/-- The failure channel of `parse` (spec §7): FormatError for an
undeserializable payload, SchemaError (the `Invalid menus: ...` throw at
line 93, carrying `_getError`'s message) for a validation failure, and a
raw JavaScript TypeError escaping from the traversal. -/
inductive JsFailure where
  | formatError
  | schemaError (msg : String)
  | typeError
deriving DecidableEq

/-- `parse` (lines 82-104) including the deserialization step.  Contrary to
the comment at line 85 (`Check for valid JSON and matches the Menu[] type
definition`), `JSON.parse` validates only JSON well-formedness, never the
`Menu[]` shape: the raw value flows into `_getError` unchecked. -/
def jsParse (content : Option Json) (pluginInfo : PluginInfo) :
    Except JsFailure Json :=
  match content with
  | none => .error .formatError
  | some j =>
    match jsValidateTop j with
    | .error () => .error .typeError
    | .ok (some msg) => .error (.schemaError msg)
    | .ok none =>
      match jsStampTop pluginInfo j with
      | .error () => .error .typeError
      | .ok j' => .ok j'

/-- Modelled from the spec: the host control flow of §2 — the host calls the
parser once per plugin and passes a successful result straight to the
Registry's `register`; that glue is not among the analyzed sources.  `reg`
abstracts the Registry update; on a failed parse the Registry value is
returned untouched. -/
def loadContribution {α : Type} (reg : α → Json → α) (registry : α)
    (content : Option Json) (pluginInfo : PluginInfo) : α :=
  match jsParse content pluginInfo with
  | .error _ => registry
  | .ok f => reg registry f

mutual
/-- Follows the spec's words (§3/§6): a raw value conforms to the node shape
when it is an object with a string `name` and either an array `children` of
conforming nodes (the Menu shape) or a string `command` (the MenuItem
shape). -/
def specConformsN : Json → Bool
  | .obj fs =>
    (match lookupField fs "name" with
     | some (.str _) => true
     | _ => false) &&
    ((match h : lookupField fs "children" with
      | some (.arr cs) => specConformsL cs
      | _ => false) ||
     (match lookupField fs "command" with
      | some (.str _) => true
      | _ => false))
  | _ => false
termination_by j => sizeOf j
decreasing_by
  have := lookupField_sizeOf h
  simp at this ⊢
  omega

/-- Follows the spec's words: each element of the sequence conforms. -/
def specConformsL : List Json → Bool
  | [] => true
  | m :: rest => specConformsN m && specConformsL rest
termination_by l => sizeOf l
end

/-- Follows the spec's words (§4.1/§6): the payload must deserialize to a
sequence (array) of conforming nodes. -/
def specConformsShape : Json → Bool
  | .arr xs => specConformsL xs
  | _ => false

mutual
/-- One node extends another: a MenuItem only by being the same item, a Menu
by keeping its name and extending its children.  Registration only ever
grows the forest this way. -/
inductive ExtN : MenuNode → MenuNode → Prop where
  | item (n c : String) (p : Option PluginInfo) : ExtN (.item n c p) (.item n c p)
  | menu (n : String) {cs cs' : List MenuNode} :
      ExtL cs cs' → ExtN (.menu n cs) (.menu n cs')

/-- One sibling list extends another: the original nodes, each extended, in
their original positions, possibly followed by newly appended nodes. -/
inductive ExtL : List MenuNode → List MenuNode → Prop where
  | nil (tail : List MenuNode) : ExtL [] tail
  | cons {a a' : MenuNode} {l l' : List MenuNode} :
      ExtN a a' → ExtL l l' → ExtL (a :: l) (a' :: l')
end

mutual
/-- An incoming node is saturated in a registry sibling list when
registering it again changes nothing: an incoming Menu finds a same-named
Menu (the first one, as the find loop does) in whose children its children
are saturated, and an incoming MenuItem finds some same-named node — any
node kind, matching `_registerMenuItem`'s actual scan. -/
def SatN (r : List MenuNode) : MenuNode → Prop
  | .menu n cs =>
    (match findMenuChildren r n with
     | some d => SatL d cs
     | none => False)
  | .item n _ _ => n ∈ topNames r

/-- A forest is saturated in a registry sibling list elementwise. -/
def SatL (r : List MenuNode) : List MenuNode → Prop
  | [] => True
  | m :: rest => SatN r m ∧ SatL r rest
end

/-- An incoming node is fresh for a prefix `r` of the registry: a Menu's name
matches no Menu of `r`, a MenuItem's name matches no node of `r` (the scan
of `_registerMenuItem` matches any node kind). -/
def freshFor (r : List MenuNode) : MenuNode → Prop
  | .menu n _ => n ∉ menuNames r
  | .item n _ _ => n ∉ topNames r

/-! ## Supporting lemmas -/

@[simp]
theorem menuNames_nil : menuNames [] = [] := rfl

@[simp]
theorem menuNames_cons_menu (n : String) (cs : List MenuNode) (L : List MenuNode) :
    menuNames (MenuNode.menu n cs :: L) = n :: menuNames L := rfl

@[simp]
theorem menuNames_cons_item (n c : String) (p : Option PluginInfo) (L : List MenuNode) :
    menuNames (MenuNode.item n c p :: L) = menuNames L := rfl

@[simp]
theorem itemNames_nil : itemNames [] = [] := rfl

@[simp]
theorem itemNames_cons_menu (n : String) (cs : List MenuNode) (L : List MenuNode) :
    itemNames (MenuNode.menu n cs :: L) = itemNames L := rfl

@[simp]
theorem itemNames_cons_item (n c : String) (p : Option PluginInfo) (L : List MenuNode) :
    itemNames (MenuNode.item n c p :: L) = n :: itemNames L := rfl

@[simp]
theorem menuNames_append (L1 L2 : List MenuNode) :
    menuNames (L1 ++ L2) = menuNames L1 ++ menuNames L2 := by
  simp [menuNames]

@[simp]
theorem itemNames_append (L1 L2 : List MenuNode) :
    itemNames (L1 ++ L2) = itemNames L1 ++ itemNames L2 := by
  simp [itemNames]

@[simp]
theorem topNames_append (L1 L2 : List MenuNode) :
    topNames (L1 ++ L2) = topNames L1 ++ topNames L2 := by
  simp [topNames]

/-- The find loop misses exactly when no Menu in the list bears the name. -/
theorem findMenuChildren_eq_none_iff (L : List MenuNode) (n : String) :
    findMenuChildren L n = none ↔ n ∉ menuNames L := by
  induction L with
  | nil => simp [findMenuChildren]
  | cons a L ih =>
    cases a with
    | menu m cs =>
      by_cases hm : m = n
      · subst hm
        simp [findMenuChildren, isMenu, nodeName]
      · simp [findMenuChildren, isMenu, nodeName, hm, ih]
        intro h
        exact fun he => hm he.symm
    | item m c p =>
      simp [findMenuChildren, isMenu, nodeName, ih]

/-- The find loop skips a prefix with no same-named Menu. -/
theorem findMenuChildren_append (L1 L2 : List MenuNode) (n : String)
    (h : n ∉ menuNames L1) :
    findMenuChildren (L1 ++ L2) n = findMenuChildren L2 n := by
  induction L1 with
  | nil => rfl
  | cons a L1 ih =>
    cases a with
    | menu m cs =>
      simp only [menuNames_cons_menu, List.mem_cons] at h
      push_neg at h
      simp [findMenuChildren, isMenu, nodeName, h.1.symm, ih h.2]
    | item m c p =>
      simp only [itemNames_cons_item, menuNames_cons_item] at h
      simp [findMenuChildren, isMenu, nodeName, ih h]

@[simp]
theorem findMenuChildren_cons_menu (n : String) (cs : List MenuNode) (L : List MenuNode) :
    findMenuChildren (MenuNode.menu n cs :: L) n = some cs := by
  simp [findMenuChildren, isMenu, nodeName]

/-- The in-place update skips a prefix with no same-named Menu. -/
theorem setFirstMenuChildren_append (L1 L2 : List MenuNode) (n : String)
    (d : List MenuNode) (h : n ∉ menuNames L1) :
    setFirstMenuChildren (L1 ++ L2) n d = L1 ++ setFirstMenuChildren L2 n d := by
  induction L1 with
  | nil => rfl
  | cons a L1 ih =>
    cases a with
    | menu m cs =>
      simp only [menuNames_cons_menu, List.mem_cons] at h
      push_neg at h
      simp [setFirstMenuChildren, isMenu, nodeName, h.1.symm, ih h.2]
    | item m c p =>
      simp only [menuNames_cons_item] at h
      simp [setFirstMenuChildren, isMenu, nodeName, ih h]

@[simp]
theorem setFirstMenuChildren_cons_menu (n : String) (cs d : List MenuNode)
    (L : List MenuNode) :
    setFirstMenuChildren (MenuNode.menu n cs :: L) n d = MenuNode.menu n d :: L := by
  simp [setFirstMenuChildren, isMenu, nodeName]

/-- The update is the identity where the find loop misses. -/
theorem setFirstMenuChildren_not_found (L : List MenuNode) (n : String)
    (d : List MenuNode) (h : n ∉ menuNames L) :
    setFirstMenuChildren L n d = L := by
  induction L with
  | nil => rfl
  | cons a L ih =>
    cases a with
    | menu m cs =>
      simp only [menuNames_cons_menu, List.mem_cons] at h
      push_neg at h
      simp [setFirstMenuChildren, isMenu, nodeName, h.1.symm, ih h.2]
    | item m c p =>
      simp only [menuNames_cons_item] at h
      simp [setFirstMenuChildren, isMenu, nodeName, ih h]

/-- `_registerMenu` where the find loop hits: the first same-named Menu
(everything left of it has no Menu with that name) keeps its position, and
only its children change — by merging the incoming children into them. -/
theorem registerMenu_found (L1 L2 : List MenuNode) (n : String)
    (cs0 cs : List MenuNode) (h : n ∉ menuNames L1) :
    registerMenu (L1 ++ MenuNode.menu n cs0 :: L2) n cs
      = (L1 ++ MenuNode.menu n (registerNodes cs0 cs).1 :: L2,
         (registerNodes cs0 cs).2) := by
  have hf : findMenuChildren (L1 ++ MenuNode.menu n cs0 :: L2) n = some cs0 := by
    rw [findMenuChildren_append L1 _ n h, findMenuChildren_cons_menu]
  simp only [registerMenu, hf]
  rw [setFirstMenuChildren_append L1 _ n _ h, setFirstMenuChildren_cons_menu]

/-- `_registerMenu` where the find loop misses: a fresh Menu is appended at
the end of the sibling list and the incoming children are merged into its
empty children list. -/
theorem registerMenu_not_found (L : List MenuNode) (n : String)
    (cs : List MenuNode) (h : n ∉ menuNames L) :
    registerMenu L n cs
      = (L ++ [MenuNode.menu n (registerNodes [] cs).1], (registerNodes [] cs).2) := by
  have hf : findMenuChildren L n = none := (findMenuChildren_eq_none_iff L n).mpr h
  simp only [registerMenu, hf]

/-! ## Claim theorems -/

/-- C10: for every input node and every Registry state, `unregister` leaves
the Registry's forest completely unchanged — `_unregisterMenu`'s body is an
empty `TODO` stub, so nothing is removed, reordered or modified. -/
theorem c10_unregister_is_noop (menus : List MenuNode) (m : MenuNode) :
    unregister menus m = menus := rfl

/-- C1 (evaluation at the failing input): registering the single-plugin
forest `[File > New]` into the empty Registry and then unregistering the
same forest leaves the registered Menu in place instead of restoring the
empty pre-registration state — `_unregisterMenu` is an unimplemented stub,
contradicting the spec's round-trip requirement. -/
theorem c1_roundtrip_fails :
    unregister (register [] "File" [MenuNode.item "New" "file.new" (some "P")]).1
        (MenuNode.menu "File" [MenuNode.item "New" "file.new" (some "P")])
      = [MenuNode.menu "File" [MenuNode.item "New" "file.new" (some "P")]] := by
  simp [register, unregister, unregisterMenu, registerMenu, registerNodes,
    registerMenuItem, findMenuChildren]

/-- C2 (evaluation at the failing input): a sibling list holding only a Menu
named "File" (and no MenuItem of that name) already blocks a MenuItem named
"File": the item is discarded and one conflict is reported, instead of the
append the claim requires — `_registerMenuItem`'s scan tests
`_isMenu(new_item)` (always false for the incoming MenuItem) instead of
`_isMenu(itm)`, so any same-named node counts as a duplicate. -/
theorem c2_item_blocked_by_same_named_menu :
    registerMenuItem [MenuNode.menu "File" []]
        (MenuNode.item "File" "file.cmd" (some "P"))
      = ([MenuNode.menu "File" []], 1) := by
  decide

/-- C4: the Menu merge rule.  (i) When the sibling list contains a Menu with
the incoming name — the first such under left-to-right search, i.e. the list
splits as `L1 ++ [Menu n cs0] ++ L2` with no Menu named `n` in `L1` — no new
node is created: every other node stays in place and only that Menu's
children change, to the recursive merge of the incoming children into them.
(ii) When it does not, a new Menu with that name is appended at the end of
the list, its children the merge of the incoming children into an empty
list.  (iii) In particular, `{File > New}` from plugin P1 followed by
`{File > Open}` from plugin P2 yields a single top-level Menu "File" whose
children are the items "New" then "Open", each tagged with its plugin. -/
theorem c4_menu_merge_rule :
    (∀ (L1 L2 : List MenuNode) (n : String) (cs0 cs : List MenuNode),
       n ∉ menuNames L1 →
       (registerMenu (L1 ++ MenuNode.menu n cs0 :: L2) n cs).1
         = L1 ++ MenuNode.menu n (registerNodes cs0 cs).1 :: L2) ∧
    (∀ (L : List MenuNode) (n : String) (cs : List MenuNode),
       n ∉ menuNames L →
       (registerMenu L n cs).1 = L ++ [MenuNode.menu n (registerNodes [] cs).1]) ∧
    (registerNodes (registerNodes []
        [MenuNode.menu "File" [MenuNode.item "New" "file.new" (some "P1")]]).1
        [MenuNode.menu "File" [MenuNode.item "Open" "file.open" (some "P2")]]).1
      = [MenuNode.menu "File" [MenuNode.item "New" "file.new" (some "P1"),
          MenuNode.item "Open" "file.open" (some "P2")]] := by
  refine ⟨?_, ?_, ?_⟩
  · intro L1 L2 n cs0 cs h
    rw [registerMenu_found L1 L2 n cs0 cs h]
  · intro L n cs h
    rw [registerMenu_not_found L n cs h]
  · simp [registerNodes, registerMenu, registerMenuItem, findMenuChildren,
      setFirstMenuChildren, isMenu, nodeName]

/-- Witness for C4: part (i) applied at a concrete sibling list. -/
theorem c4_menu_merge_rule_witness :
    (("A" : String) ∉ menuNames ([] : List MenuNode)) ∧
    (registerMenu ([] ++ MenuNode.menu "A" [] :: []) "A" []).1
      = [] ++ MenuNode.menu "A" (registerNodes [] []).1 :: [] :=
  ⟨by simp, c4_menu_merge_rule.1 [] [] "A" [] [] (by simp)⟩

/-- The source's `isEmpty` check is the complement of the spec's
"empty or whitespace-only" test. -/
theorem isEmpty_eq_not_blank (s : String) : isEmpty s = !blankStr s := by
  rcases s with ⟨l⟩
  cases l with
  | nil => rfl
  | cons c cs =>
    show (decide (¬(c :: cs = [])) && _) = _
    simp only [isEmpty, blankStr, stripWs]
    by_cases hall : (c :: cs).all jsWhitespace = true
    · have hf : (c :: cs).filter (fun x => !jsWhitespace x) = [] := by
        simp only [List.filter_eq_nil]
        intro a ha
        simp [List.all_eq_true.mp hall a ha]
      simp [hf, hall, String.ext_iff]
    · have hf : (c :: cs).filter (fun x => !jsWhitespace x) ≠ [] := by
        simp only [ne_eq, List.filter_eq_nil]
        push_neg
        simp only [List.all_eq_true] at hall
        push_neg at hall
        obtain ⟨a, ha, hw⟩ := hall
        exact ⟨a, ha, by simp [hw]⟩
      simp [hf, hall, String.ext_iff]

mutual
/-- `_getError`'s traversal on one node returns exactly the first schema
violation of the node in the spec's depth-first order (as its message). -/
theorem getErrorN_spec : ∀ (m : MenuNode),
    getErrorN m = (specViolationsN m).head?.map violationMsg
  | .menu n cs => by
    rw [getErrorN, specViolationsN]
    by_cases hb : blankStr n
    · simp [isEmpty_eq_not_blank, hb, violationMsg]
    · simp only [isEmpty_eq_not_blank, hb]
      simpa using getErrorL_spec cs
  | .item n c p => by
    rw [getErrorN, specViolationsN]
    by_cases hn : blankStr n
    · simp [isEmpty_eq_not_blank, hn, violationMsg]
    · by_cases hc : blankStr c
      · simp [isEmpty_eq_not_blank, hn, hc, violationMsg]
      · simp [isEmpty_eq_not_blank, hn, hc]

/-- `_getError`'s traversal on a forest returns exactly the first schema
violation in the spec's depth-first left-to-right order (as its message). -/
theorem getErrorL_spec : ∀ (F : List MenuNode),
    getErrorL F = (specViolationsL F).head?.map violationMsg
  | [] => by simp [getErrorL, specViolationsL]
  | m :: rest => by
    rw [getErrorL, specViolationsL]
    rw [getErrorN_spec m]
    cases hv : specViolationsN m with
    | nil => simpa using getErrorL_spec rest
    | cons v vs => simp
end

/-- C6: for every forest containing a schema violation (a node with an empty
or whitespace-only name, or a MenuItem with an empty or whitespace-only
command), `parse` fails with the SchemaError describing the violated rule,
and the rule reported is the first violation in depth-first, left-to-right
order. -/
theorem c6_schema_error_is_first_violation (F : List MenuNode) (p : PluginInfo)
    (h : specViolationsL F ≠ []) :
    ∃ v, (specViolationsL F).head? = some v ∧
      parseMenus F p = .error (violationMsg v) := by
  cases hv : specViolationsL F with
  | nil => exact absurd hv h
  | cons v vs =>
    refine ⟨v, rfl, ?_⟩
    unfold parseMenus getError
    rw [getErrorL_spec F, hv]
    rfl

/-- Witness for C6 at the forest `[Menu "  " []]` (whitespace-only name). -/
theorem c6_schema_error_witness :
    specViolationsL [MenuNode.menu "  " []] ≠ [] ∧
    ∃ v, (specViolationsL [MenuNode.menu "  " []]).head? = some v ∧
      parseMenus [MenuNode.menu "  " []] "P" = .error (violationMsg v) := by
  have hb : blankStr "  " = true := by decide
  have hv : specViolationsL [MenuNode.menu "  " []]
      = [SchemaViolation.unnamedMenu] := by
    rw [specViolationsL, specViolationsN, specViolationsL]
    simp [hb]
  exact ⟨by simp [hv],
    c6_schema_error_is_first_violation [MenuNode.menu "  " []] "P" (by simp [hv])⟩

mutual
/-- After the stamping pass, every MenuItem below a node carries the plugin. -/
theorem allStamped_stampN (p : PluginInfo) :
    ∀ m, allStampedN p (stampN p m) = true
  | .menu n cs => by
    rw [stampN, allStampedN]
    exact allStamped_stampL p cs
  | .item n c pl => by
    rw [stampN, allStampedN]
    simp

/-- After the stamping pass, every MenuItem of a forest carries the plugin. -/
theorem allStamped_stampL (p : PluginInfo) :
    ∀ F, allStampedL p (stampL p F) = true
  | [] => by rw [stampL, allStampedL]
  | m :: rest => by
    rw [stampL, allStampedL]
    simp [allStamped_stampN p m, allStamped_stampL p rest]
end

/-- C7: whenever `parse` succeeds, the returned forest has every MenuItem's
`plugin` field equal to the identity passed in: the stamping pass reaches
every leaf at every depth (and, being a total traversal, cannot fail). -/
theorem c7_parse_stamps_every_leaf (F : List MenuNode) (p : PluginInfo)
    (F' : List MenuNode) (h : parseMenus F p = .ok F') :
    allStampedL p F' = true := by
  unfold parseMenus at h
  cases hg : getError F with
  | some e => rw [hg] at h; exact absurd h (by simp)
  | none =>
    rw [hg] at h
    have : F' = stampL p F := by
      injection h with h'
      exact h'.symm
    rw [this]
    exact allStamped_stampL p F

/-- Witness for C7: a successful parse of a two-level forest, with the
returned forest fully stamped. -/
theorem c7_parse_stamps_every_leaf_witness :
    parseMenus [MenuNode.menu "M" [MenuNode.item "I" "c" none]] "P1"
      = .ok [MenuNode.menu "M" [MenuNode.item "I" "c" (some "P1")]] ∧
    allStampedL "P1" [MenuNode.menu "M" [MenuNode.item "I" "c" (some "P1")]] = true := by
  have he : parseMenus [MenuNode.menu "M" [MenuNode.item "I" "c" none]] "P1"
      = .ok [MenuNode.menu "M" [MenuNode.item "I" "c" (some "P1")]] := by
    have h1 : isEmpty "M" = true := by decide
    have h2 : isEmpty "I" = true := by decide
    have h3 : isEmpty "c" = true := by decide
    unfold parseMenus getError
    simp [getErrorL, getErrorN, h1, h2, h3, stampL, stampN]
  exact ⟨he, c7_parse_stamps_every_leaf _ "P1" _ he⟩

/-- C5 (counterexample): the JSON text `5` is valid JSON, so it
deserializes, but the value does not conform to the Menu/MenuItem sequence
shape; `parse` nevertheless does not fail with a FormatError — iterating a
number in `_menuForEach` raises a raw TypeError (`5 is not iterable`),
which is also neither a FormatError nor a SchemaError.  This refutes both
"every non-conforming input fails with FormatError" and "every failure is a
FormatError or a SchemaError". -/
theorem c5_counterexample :
    specConformsShape (Json.num 5) = false ∧
    jsParse (some (Json.num 5)) "P" = .error .typeError := by
  constructor
  · rfl
  · rw [jsParse, jsValidateTop]
    all_goals simp

/-- C5 (amended): `parse` fails with a FormatError exactly when the content
is not parseable as JSON at all; and on every failed parse the Registry is
never touched (the Registry update function is not called, for any choice
of registry representation and update function). -/
theorem c5_amended_failure_classification :
    (∀ p, jsParse none p = .error .formatError) ∧
    (∀ c p, jsParse c p = .error .formatError → c = none) ∧
    (∀ (α : Type) (reg : α → Json → α) (r : α) (c : Option Json)
       (p : PluginInfo) (e : JsFailure),
       jsParse c p = .error e → loadContribution reg r c p = r) := by
  refine ⟨fun p => rfl, ?_, ?_⟩
  · intro c p h
    cases c with
    | none => rfl
    | some j =>
      rw [jsParse] at h
      cases hv : jsValidateTop j with
      | error u => rw [hv] at h; simp at h
      | ok sv =>
        cases sv with
        | some msg => rw [hv] at h; simp at h
        | none =>
          rw [hv] at h
          cases hs : jsStampTop p j with
          | error u => rw [hs] at h; simp at h
          | ok j' => rw [hs] at h; simp at h
  · intro α reg r c p e h
    rw [loadContribution, h]

/-- Witness for C5's amended claim: the FormatError case, and a failed parse
(the TypeError of the counterexample input) leaving a concrete registry
untouched even under an update function that always changes it. -/
theorem c5_amended_witness :
    jsParse none "P" = .error .formatError ∧
    loadContribution (fun (n : Nat) (_ : Json) => n + 1) 7
      (some (Json.num 5)) "P" = 7 :=
  ⟨c5_amended_failure_classification.1 "P",
   c5_amended_failure_classification.2.2 Nat _ 7 (some (Json.num 5)) "P"
     .typeError (by rw [jsParse, jsValidateTop] <;> simp)⟩

/-! ## The extension order and registration -/

mutual
/-- Node extension is reflexive. -/
theorem extN_refl : ∀ (m : MenuNode), ExtN m m
  | .menu n cs => ExtN.menu n (extL_refl cs)
  | .item n c p => ExtN.item n c p

/-- List extension is reflexive. -/
theorem extL_refl : ∀ (l : List MenuNode), ExtL l l
  | [] => ExtL.nil []
  | a :: l => ExtL.cons (extN_refl a) (extL_refl l)
end

/-- Appending nodes on the right extends a sibling list. -/
theorem extL_append_right (l t : List MenuNode) : ExtL l (l ++ t) := by
  induction l with
  | nil => exact ExtL.nil t
  | cons a l ih => exact ExtL.cons (extN_refl a) ih

mutual
/-- Node extension is transitive. -/
theorem extN_trans : ∀ (a : MenuNode) {b c : MenuNode},
    ExtN a b → ExtN b c → ExtN a c
  | .item n cc p, b, c, h1, h2 => by
    cases h1
    cases h2
    exact ExtN.item n cc p
  | .menu n cs, b, c, h1, h2 => by
    cases h1 with
    | menu _ hl1 =>
      cases h2 with
      | menu _ hl2 => exact ExtN.menu n (extL_trans cs hl1 hl2)

/-- List extension is transitive. -/
theorem extL_trans : ∀ (l : List MenuNode) {l2 l3 : List MenuNode},
    ExtL l l2 → ExtL l2 l3 → ExtL l l3
  | [], _, l3, _, _ => ExtL.nil l3
  | a :: l, l2, l3, h1, h2 => by
    cases h1 with
    | cons ha hl =>
      cases h2 with
      | cons hb hl2 => exact ExtL.cons (extN_trans a ha hb) (extL_trans l hl hl2)
end

/-- Extension never changes a node's name. -/
theorem extN_nodeName {a a' : MenuNode} (h : ExtN a a') :
    nodeName a' = nodeName a := by
  cases h <;> rfl

/-- Extension never changes a node's variant. -/
theorem extN_isMenu {a a' : MenuNode} (h : ExtN a a') :
    isMenu a' = isMenu a := by
  cases h <;> rfl

/-- Extension preserves the presence of a name in a sibling list. -/
theorem extL_topNames_mem : ∀ (r r' : List MenuNode), ExtL r r' →
    ∀ n, n ∈ topNames r → n ∈ topNames r'
  | [], _, _, n, h => by simp [topNames] at h
  | a :: l, r', hext, n, h => by
    cases hext with
    | cons ha hl =>
      simp only [topNames, List.map_cons, List.mem_cons] at h
      simp only [topNames, List.map_cons, List.mem_cons]
      rcases h with h1 | h1
      · exact Or.inl (h1.trans (extN_nodeName ha).symm)
      · exact Or.inr (extL_topNames_mem l _ hl n h1)

/-- Extension preserves what the find loop sees: the first Menu named `n`
stays in place, its children extended. -/
theorem extL_findMenuChildren : ∀ (r r' : List MenuNode), ExtL r r' →
    ∀ (n : String) (d : List MenuNode), findMenuChildren r n = some d →
    ∃ d', findMenuChildren r' n = some d' ∧ ExtL d d'
  | [], _, _, n, d, h => by simp [findMenuChildren] at h
  | a :: l, r', hext, n, d, h => by
    cases hext with
    | cons ha hl =>
      by_cases hc : (isMenu a && nodeName a == n) = true
      · cases a with
        | item _ _ _ => simp [isMenu] at hc
        | menu m cs =>
          have hmn : m = n := by simpa [isMenu, nodeName] using hc
          subst hmn
          rw [findMenuChildren_cons_menu] at h
          cases h
          cases ha with
          | menu _ hcs =>
            exact ⟨_, findMenuChildren_cons_menu _ _ _, hcs⟩
      · simp only [findMenuChildren, if_neg hc] at h
        obtain ⟨d', hd', hext'⟩ := extL_findMenuChildren l _ hl n d h
        refine ⟨d', ?_, hext'⟩
        rename_i a' l'
        have hc' : ¬(isMenu a' && nodeName a' == n) = true := by
          rw [extN_isMenu ha, extN_nodeName ha]
          exact hc
        simp only [findMenuChildren, if_neg hc']
        exact hd'

/-- Replacing the found Menu's children with extended children extends the
sibling list. -/
theorem setFirst_ext : ∀ (r : List MenuNode) (n : String) (cs0 d : List MenuNode),
    findMenuChildren r n = some cs0 → ExtL cs0 d →
    ExtL r (setFirstMenuChildren r n d)
  | [], n, cs0, d, hfind, _ => by simp [findMenuChildren] at hfind
  | a :: l, n, cs0, d, hfind, hd => by
    by_cases hc : (isMenu a && nodeName a == n) = true
    · cases a with
      | item _ _ _ => simp [isMenu] at hc
      | menu m cs =>
        have hmn : m = n := by simpa [isMenu, nodeName] using hc
        subst hmn
        rw [findMenuChildren_cons_menu] at hfind
        cases hfind
        rw [setFirstMenuChildren_cons_menu]
        exact ExtL.cons (ExtN.menu m hd) (extL_refl l)
    · simp only [findMenuChildren, if_neg hc] at hfind
      simp only [setFirstMenuChildren, if_neg hc]
      exact ExtL.cons (extN_refl a) (setFirst_ext l n cs0 d hfind hd)

/-- After the in-place update the find loop returns the new children. -/
theorem findMenuChildren_setFirst : ∀ (r : List MenuNode) (n : String)
    (cs0 d : List MenuNode), findMenuChildren r n = some cs0 →
    findMenuChildren (setFirstMenuChildren r n d) n = some d
  | [], n, cs0, d, hfind => by simp [findMenuChildren] at hfind
  | a :: l, n, cs0, d, hfind => by
    by_cases hc : (isMenu a && nodeName a == n) = true
    · cases a with
      | item _ _ _ => simp [isMenu] at hc
      | menu m cs =>
        have hmn : m = n := by simpa [isMenu, nodeName] using hc
        subst hmn
        rw [setFirstMenuChildren_cons_menu, findMenuChildren_cons_menu]
    · simp only [findMenuChildren, if_neg hc] at hfind
      simp only [setFirstMenuChildren, if_neg hc, findMenuChildren, if_neg hc]
      exact findMenuChildren_setFirst l n cs0 d hfind

/-- Writing back exactly the children the find loop returned is a no-op. -/
theorem setFirst_self : ∀ (r : List MenuNode) (n : String) (d : List MenuNode),
    findMenuChildren r n = some d → setFirstMenuChildren r n d = r
  | [], n, d, hfind => by simp [findMenuChildren] at hfind
  | a :: l, n, d, hfind => by
    by_cases hc : (isMenu a && nodeName a == n) = true
    · cases a with
      | item _ _ _ => simp [isMenu] at hc
      | menu m cs =>
        have hmn : m = n := by simpa [isMenu, nodeName] using hc
        subst hmn
        rw [findMenuChildren_cons_menu] at hfind
        cases hfind
        rw [setFirstMenuChildren_cons_menu]
    · simp only [findMenuChildren, if_neg hc] at hfind
      simp only [setFirstMenuChildren, if_neg hc]
      rw [setFirst_self l n d hfind]

mutual
/-- Saturation of a node is preserved by extension of the registry list. -/
theorem satN_mono : ∀ (m : MenuNode) (r r' : List MenuNode),
    ExtL r r' → SatN r m → SatN r' m
  | .menu n cs, r, r', hext, hsat => by
    simp only [SatN] at hsat ⊢
    cases hd : findMenuChildren r n with
    | none => rw [hd] at hsat; exact hsat.elim
    | some d =>
      rw [hd] at hsat
      obtain ⟨d', hd', hx⟩ := extL_findMenuChildren r r' hext n d hd
      rw [hd']
      exact satL_mono cs d d' hx hsat
  | .item n c p, r, r', hext, hsat => by
    simp only [SatN] at hsat ⊢
    exact extL_topNames_mem r r' hext n hsat

/-- Saturation of a forest is preserved by extension of the registry list. -/
theorem satL_mono : ∀ (F : List MenuNode) (r r' : List MenuNode),
    ExtL r r' → SatL r F → SatL r' F
  | [], _, _, _, _ => by simp [SatL]
  | m :: rest, r, r', hext, hsat => by
    simp only [SatL] at hsat ⊢
    exact ⟨satN_mono m r r' hext hsat.1, satL_mono rest r r' hext hsat.2⟩
end

/-- `_registerMenuItem` discards the incoming item when some node of the
sibling list bears its name (the scan matches any node kind, since the
`!_isMenu(new_item)` conjunct is vacuous for a MenuItem). -/
theorem registerMenuItem_mem (r : List MenuNode) (n c : String)
    (p : Option PluginInfo) (h : n ∈ topNames r) :
    registerMenuItem r (.item n c p) = (r, 1) := by
  unfold registerMenuItem
  have hany : (r.any fun itm =>
      nodeName itm == nodeName (MenuNode.item n c p) && !isMenu (MenuNode.item n c p)) = true := by
    obtain ⟨itm, hm, he⟩ : ∃ itm ∈ r, nodeName itm = n := by simpa [topNames] using h
    simp [List.any_eq_true, isMenu, nodeName]
    exact ⟨itm, hm, he⟩
  simp [hany]

/-- `_registerMenuItem` appends the incoming item when no node of the
sibling list bears its name. -/
theorem registerMenuItem_not_mem (r : List MenuNode) (n c : String)
    (p : Option PluginInfo) (h : n ∉ topNames r) :
    registerMenuItem r (.item n c p) = (r ++ [.item n c p], 0) := by
  unfold registerMenuItem
  have hany : (r.any fun itm =>
      nodeName itm == nodeName (MenuNode.item n c p) && !isMenu (MenuNode.item n c p)) = false := by
    simp only [List.any_eq_false]
    intro itm hm
    simp [isMenu, nodeName]
    intro he
    exact absurd (by simpa [topNames] using ⟨itm, hm, he⟩ : n ∈ topNames r) h
  simp [hany]

/-- `_registerMenuItem` extends the sibling list. -/
theorem registerMenuItem_ext (r : List MenuNode) (n c : String)
    (p : Option PluginInfo) :
    ExtL r (registerMenuItem r (.item n c p)).1 := by
  by_cases h : n ∈ topNames r
  · rw [registerMenuItem_mem r n c p h]
    exact extL_refl r
  · rw [registerMenuItem_not_mem r n c p h]
    exact extL_append_right r _

/-- After `_registerMenuItem`, some node bears the item's name. -/
theorem registerMenuItem_topNames_mem (r : List MenuNode) (n c : String)
    (p : Option PluginInfo) :
    n ∈ topNames (registerMenuItem r (.item n c p)).1 := by
  by_cases h : n ∈ topNames r
  · rw [registerMenuItem_mem r n c p h]
    exact h
  · rw [registerMenuItem_not_mem r n c p h]
    simp [topNames, nodeName]

mutual
/-- Registration only extends the registry sibling list. -/
theorem registerMenu_ext : ∀ (cs : List MenuNode) (r : List MenuNode) (n : String),
    ExtL r (registerMenu r n cs).1
  | cs, r, n => by
    cases hf : findMenuChildren r n with
    | some cs0 =>
      simp only [registerMenu, hf]
      exact setFirst_ext r n cs0 _ hf (registerNodes_ext cs cs0)
    | none =>
      simp only [registerMenu, hf]
      exact extL_append_right r _
termination_by cs r n => (sizeOf cs, 1)

/-- The merge loop only extends the registry sibling list. -/
theorem registerNodes_ext : ∀ (F : List MenuNode) (r : List MenuNode),
    ExtL r (registerNodes r F).1
  | [], r => by
    simp only [registerNodes]
    exact extL_refl r
  | .menu n cs :: rest, r => by
    simp only [registerNodes]
    exact extL_trans r (registerMenu_ext cs r n) (registerNodes_ext rest _)
  | .item n c p :: rest, r => by
    simp only [registerNodes]
    exact extL_trans r (registerMenuItem_ext r n c p) (registerNodes_ext rest _)
termination_by F r => (sizeOf F, 0)
end

mutual
/-- After `_registerMenu`, the incoming Menu is saturated: the find loop now
hits a Menu of that name whose children absorb the incoming children. -/
theorem registerMenu_sat : ∀ (cs : List MenuNode) (r : List MenuNode) (n : String),
    SatN (registerMenu r n cs).1 (.menu n cs)
  | cs, r, n => by
    cases hf : findMenuChildren r n with
    | some cs0 =>
      simp only [registerMenu, hf, SatN]
      rw [findMenuChildren_setFirst r n cs0 _ hf]
      exact registerNodes_sat cs cs0
    | none =>
      simp only [registerMenu, hf, SatN]
      have hnot : n ∉ menuNames r := (findMenuChildren_eq_none_iff r n).mp hf
      rw [findMenuChildren_append r _ n hnot, findMenuChildren_cons_menu]
      exact registerNodes_sat cs []
termination_by cs r n => (sizeOf cs, 1)

/-- After the merge loop, the whole incoming forest is saturated. -/
theorem registerNodes_sat : ∀ (F : List MenuNode) (r : List MenuNode),
    SatL (registerNodes r F).1 F
  | [], r => by simp [registerNodes, SatL]
  | .menu n cs :: rest, r => by
    simp only [registerNodes, SatL]
    refine ⟨?_, registerNodes_sat rest _⟩
    exact satN_mono _ _ _ (registerNodes_ext rest _) (registerMenu_sat cs r n)
  | .item n c p :: rest, r => by
    simp only [registerNodes, SatL, SatN]
    refine ⟨?_, registerNodes_sat rest _⟩
    exact extL_topNames_mem _ _ (registerNodes_ext rest _) n
      (registerMenuItem_topNames_mem r n c p)
termination_by F r => (sizeOf F, 0)
end

mutual
/-- Registering a saturated Menu changes nothing: the state is returned
as-is and every MenuItem below the incoming Menu is reported as a
conflict. -/
theorem registerMenu_of_sat : ∀ (cs : List MenuNode) (r : List MenuNode) (n : String),
    SatN r (.menu n cs) → registerMenu r n cs = (r, itemCountL cs)
  | cs, r, n, hsat => by
    simp only [SatN] at hsat
    cases hf : findMenuChildren r n with
    | none => rw [hf] at hsat; exact hsat.elim
    | some d =>
      rw [hf] at hsat
      have hreg := registerNodes_of_sat cs d hsat
      simp only [registerMenu, hf, hreg]
      rw [setFirst_self r n d hf]
termination_by cs r n => (sizeOf cs, 1)

/-- Merging a saturated forest changes nothing: the state is returned as-is
and every MenuItem of the forest is reported as a conflict. -/
theorem registerNodes_of_sat : ∀ (F : List MenuNode) (r : List MenuNode),
    SatL r F → registerNodes r F = (r, itemCountL F)
  | [], r, _ => by simp [registerNodes, itemCountL]
  | .menu n cs :: rest, r, hsat => by
    simp only [SatL] at hsat
    have h1 := registerMenu_of_sat cs r n hsat.1
    have h2 := registerNodes_of_sat rest r hsat.2
    simp only [registerNodes, h1, h2, itemCountL, itemCountN]
  | .item n c p :: rest, r, hsat => by
    simp only [SatL, SatN] at hsat
    have h1 := registerMenuItem_mem r n c p hsat.1
    have h2 := registerNodes_of_sat rest r hsat.2
    simp only [registerNodes, h1, h2, itemCountL, itemCountN]
termination_by F r => (sizeOf F, 0)
end

/-- C3: registering the same forest twice is idempotent on the observable
state, for every starting Registry state: the second registration returns
the state unchanged (so no MenuItem is duplicated), reports exactly one
conflict per MenuItem of the forest (they are all rejected as duplicates),
and — the embedding being a total function returning normally — does not
abort or raise an error to the caller. -/
theorem c3_double_registration_idempotent (r F : List MenuNode)
    (_hmenus : ∀ m ∈ F, isMenu m = true) (_hvalid : getError F = none) :
    registerNodes (registerNodes r F).1 F = ((registerNodes r F).1, itemCountL F) :=
  registerNodes_of_sat F _ (registerNodes_sat F r)

/-- Witness for C3: the forest `[File > New]` registered twice into the
empty Registry; the second call returns the state of the first unchanged
with one conflict. -/
theorem c3_double_registration_idempotent_witness :
    (∀ m ∈ [MenuNode.menu "File" [MenuNode.item "New" "file.new" (some "P")]],
       isMenu m = true) ∧
    getError [MenuNode.menu "File" [MenuNode.item "New" "file.new" (some "P")]] = none ∧
    registerNodes (registerNodes []
        [MenuNode.menu "File" [MenuNode.item "New" "file.new" (some "P")]]).1
        [MenuNode.menu "File" [MenuNode.item "New" "file.new" (some "P")]]
      = ((registerNodes []
          [MenuNode.menu "File" [MenuNode.item "New" "file.new" (some "P")]]).1,
         itemCountL [MenuNode.menu "File" [MenuNode.item "New" "file.new" (some "P")]]) := by
  have h1 : ∀ m ∈ [MenuNode.menu "File" [MenuNode.item "New" "file.new" (some "P")]],
      isMenu m = true := by decide
  have h2 : getError [MenuNode.menu "File" [MenuNode.item "New" "file.new" (some "P")]]
      = none := by
    have e1 : isEmpty "File" = true := by decide
    have e2 : isEmpty "New" = true := by decide
    have e3 : isEmpty "file.new" = true := by decide
    unfold getError
    simp [getErrorL, getErrorN, e1, e2, e3]
  exact ⟨h1, h2, c3_double_registration_idempotent _ _ h1 h2⟩

/-- `topNames` is unchanged by the in-place children update. -/
theorem setFirst_topNames : ∀ (r : List MenuNode) (n : String) (d : List MenuNode),
    topNames (setFirstMenuChildren r n d) = topNames r
  | [], _, _ => rfl
  | a :: l, n, d => by
    by_cases hc : (isMenu a && nodeName a == n) = true
    · cases a with
      | item _ _ _ => simp [isMenu] at hc
      | menu m cs =>
        have hmn : m = n := by simpa [isMenu, nodeName] using hc
        subst hmn
        rw [setFirstMenuChildren_cons_menu]
        simp [topNames, nodeName]
    · simp only [setFirstMenuChildren, if_neg hc]
      simp [topNames, nodeName]
      exact setFirst_topNames l n d

/-- Registering a Menu whose name is fresh for a prefix of the sibling list
operates entirely inside the suffix. -/
theorem registerMenu_fresh_append (r s : List MenuNode) (n : String)
    (cs : List MenuNode) (h : n ∉ menuNames r) :
    registerMenu (r ++ s) n cs
      = (r ++ (registerMenu s n cs).1, (registerMenu s n cs).2) := by
  cases hf : findMenuChildren s n with
  | some cs0 =>
    have hrs : findMenuChildren (r ++ s) n = some cs0 := by
      rw [findMenuChildren_append r s n h, hf]
    simp only [registerMenu, hf, hrs]
    rw [setFirstMenuChildren_append r s n _ h]
  | none =>
    have hrs : findMenuChildren (r ++ s) n = none := by
      rw [findMenuChildren_append r s n h, hf]
    simp only [registerMenu, hf, hrs]
    simp

/-- Registering a MenuItem whose name is fresh for a prefix of the sibling
list operates entirely inside the suffix. -/
theorem registerMenuItem_fresh_append (r s : List MenuNode) (n c : String)
    (p : Option PluginInfo) (h : n ∉ topNames r) :
    registerMenuItem (r ++ s) (.item n c p)
      = (r ++ (registerMenuItem s (.item n c p)).1,
         (registerMenuItem s (.item n c p)).2) := by
  by_cases hs : n ∈ topNames s
  · rw [registerMenuItem_mem (r ++ s) n c p
        (by rw [topNames_append]; exact List.mem_append_right _ hs),
      registerMenuItem_mem s n c p hs]
  · have hrs : n ∉ topNames (r ++ s) := by
      rw [topNames_append]
      simp only [List.mem_append]
      exact fun hor => hor.elim h hs
    rw [registerMenuItem_not_mem (r ++ s) n c p hrs,
      registerMenuItem_not_mem s n c p hs]
    simp

/-- The merge loop over a forest entirely fresh for a prefix of the registry
operates inside the suffix: the prefix passes through untouched. -/
theorem registerNodes_fresh_append : ∀ (F : List MenuNode) (r s : List MenuNode),
    (∀ m ∈ F, freshFor r m) →
    registerNodes (r ++ s) F
      = (r ++ (registerNodes s F).1, (registerNodes s F).2)
  | [], r, s, _ => by simp [registerNodes]
  | .menu n cs :: rest, r, s, h => by
    have hn : n ∉ menuNames r := by
      simpa [freshFor] using h _ (List.mem_cons_self _ _)
    have hrest : ∀ m ∈ rest, freshFor r m :=
      fun m hm => h m (List.mem_cons_of_mem _ hm)
    have h1 := registerMenu_fresh_append r s n cs hn
    have h2 := registerNodes_fresh_append rest r (registerMenu s n cs).1 hrest
    simp only [registerNodes, h1, h2]
  | .item n c p :: rest, r, s, h => by
    have hn : n ∉ topNames r := by
      simpa [freshFor] using h _ (List.mem_cons_self _ _)
    have hrest : ∀ m ∈ rest, freshFor r m :=
      fun m hm => h m (List.mem_cons_of_mem _ hm)
    have h1 := registerMenuItem_fresh_append r s n c p hn
    have h2 := registerNodes_fresh_append rest r
      (registerMenuItem s (.item n c p)).1 hrest
    simp only [registerNodes, h1, h2]

/-- Menu names of a sibling list are among its node names. -/
theorem menuNames_subset_topNames (L : List MenuNode) :
    menuNames L ⊆ topNames L := by
  intro n hn
  simp only [menuNames, List.mem_map, List.mem_filter] at hn
  obtain ⟨m, ⟨hm, _⟩, he⟩ := hn
  exact List.mem_map.mpr ⟨m, hm, he⟩

/-- Top-level node names occur among all names of a forest. -/
theorem topNames_subset_allNames : ∀ (L : List MenuNode),
    topNames L ⊆ allNamesL L
  | [] => by simp [topNames]
  | m :: rest => by
    intro n hn
    simp only [topNames, List.map_cons, List.mem_cons] at hn
    rw [allNamesL]
    rcases hn with h1 | h1
    · cases m with
      | menu nm cs => rw [allNamesN]; simp [nodeName] at h1; simp [h1]
      | item nm c p => rw [allNamesN]; simp [nodeName] at h1; simp [h1]
    · have := topNames_subset_allNames rest h1
      simp [this]

/-- `_registerMenu` introduces no top-level name other than the incoming
Menu's. -/
theorem registerMenu_topNames (r : List MenuNode) (n : String)
    (cs : List MenuNode) :
    topNames (registerMenu r n cs).1 ⊆ topNames r ++ [n] := by
  cases hf : findMenuChildren r n with
  | some cs0 =>
    simp only [registerMenu, hf]
    rw [setFirst_topNames]
    exact fun a ha => List.mem_append_left _ ha
  | none =>
    simp only [registerMenu, hf]
    rw [topNames_append]
    simp [topNames, nodeName]

/-- The merge loop introduces no top-level name outside the incoming
forest's top-level names. -/
theorem registerNodes_topNames : ∀ (F : List MenuNode) (r : List MenuNode),
    topNames (registerNodes r F).1 ⊆ topNames r ++ topNames F
  | [], r => by simp [registerNodes]
  | .menu n cs :: rest, r => by
    intro a ha
    simp only [registerNodes] at ha
    have h2 := registerNodes_topNames rest (registerMenu r n cs).1 ha
    simp only [List.mem_append] at h2
    rcases h2 with h2 | h2
    · have := registerMenu_topNames r n cs h2
      simp only [List.mem_append, List.mem_singleton] at this
      simp only [topNames, List.map_cons, List.mem_append, List.mem_cons, nodeName]
      tauto
    · simp only [topNames, List.map_cons, List.mem_append, List.mem_cons, nodeName]
      simp only [topNames] at h2
      tauto
  | .item n c p :: rest, r => by
    intro a ha
    simp only [registerNodes] at ha
    have h2 := registerNodes_topNames rest (registerMenuItem r (.item n c p)).1 ha
    simp only [List.mem_append] at h2
    have hstep : topNames (registerMenuItem r (.item n c p)).1 ⊆ topNames r ++ [n] := by
      by_cases hm : n ∈ topNames r
      · rw [registerMenuItem_mem r n c p hm]
        exact fun x hx => List.mem_append_left _ hx
      · rw [registerMenuItem_not_mem r n c p hm, topNames_append]
        simp [topNames, nodeName]
    rcases h2 with h2 | h2
    · have := hstep h2
      simp only [List.mem_append, List.mem_singleton] at this
      simp only [topNames, List.map_cons, List.mem_append, List.mem_cons, nodeName]
      tauto
    · simp only [topNames, List.map_cons, List.mem_append, List.mem_cons, nodeName]
      simp only [topNames] at h2
      tauto

/-- C8 (counterexample): the forests `[Menu "A"]` and `[Menu "B"]` share no
names at any level, yet registering them into the empty Registry in the two
orders yields different forests (`[A, B]` versus `[B, A]`): merge order is
observable in the sibling order, so the final trees are not equal. -/
theorem c8_counterexample :
    (∀ n, n ∈ allNamesL [MenuNode.menu "A" []] →
       n ∉ allNamesL [MenuNode.menu "B" []]) ∧
    (registerNodes (registerNodes [] [MenuNode.menu "A" []]).1
        [MenuNode.menu "B" []]).1
      ≠ (registerNodes (registerNodes [] [MenuNode.menu "B" []]).1
        [MenuNode.menu "A" []]).1 := by
  constructor
  · intro n h
    simp [allNamesL, allNamesN] at h ⊢
    simp [h]
  · have eA : (registerNodes (registerNodes [] [MenuNode.menu "A" []]).1
        [MenuNode.menu "B" []]).1
        = [MenuNode.menu "A" [], MenuNode.menu "B" []] := by
      simp [registerNodes, registerMenu, findMenuChildren, isMenu, nodeName]
    have eB : (registerNodes (registerNodes [] [MenuNode.menu "B" []]).1
        [MenuNode.menu "A" []]).1
        = [MenuNode.menu "B" [], MenuNode.menu "A" []] := by
      simp [registerNodes, registerMenu, findMenuChildren, isMenu, nodeName]
    rw [eA, eB]
    decide

/-- C8 (amended): for forests sharing no Menu or MenuItem names at any
level, registering A then B into the empty Registry yields exactly the
forest of A followed by the forest of B, and registering B then A the same
trees in the opposite order — the two results contain the same top-level
trees but differ in sibling order whenever both forests are nonempty. -/
theorem c8_disjoint_registration_appends (A B : List MenuNode)
    (hA : ∀ m ∈ A, isMenu m = true) (hB : ∀ m ∈ B, isMenu m = true)
    (hdisj : ∀ n, n ∈ allNamesL A → n ∉ allNamesL B) :
    (registerNodes (registerNodes [] A).1 B).1
        = (registerNodes [] A).1 ++ (registerNodes [] B).1 ∧
    (registerNodes (registerNodes [] B).1 A).1
        = (registerNodes [] B).1 ++ (registerNodes [] A).1 := by
  have keyA : topNames (registerNodes [] A).1 ⊆ allNamesL A := by
    intro x hx
    have := registerNodes_topNames A [] hx
    simp only [topNames, List.map_nil, List.nil_append] at this
    exact topNames_subset_allNames A this
  have keyB : topNames (registerNodes [] B).1 ⊆ allNamesL B := by
    intro x hx
    have := registerNodes_topNames B [] hx
    simp only [topNames, List.map_nil, List.nil_append] at this
    exact topNames_subset_allNames B this
  have memTop : ∀ (L : List MenuNode) (m : MenuNode), m ∈ L →
      nodeName m ∈ topNames L :=
    fun L m hm => List.mem_map.mpr ⟨m, hm, rfl⟩
  constructor
  · have hfresh : ∀ m ∈ B, freshFor (registerNodes [] A).1 m := by
      intro m hm
      cases m with
      | item nm c p => simpa [isMenu] using hB _ hm
      | menu nm cs =>
        simp only [freshFor]
        intro hmem
        have h1 : nm ∈ allNamesL A :=
          keyA (menuNames_subset_topNames _ hmem)
        have h2 : nm ∈ allNamesL B :=
          topNames_subset_allNames B (memTop B _ hm)
        exact hdisj nm h1 h2
    have := registerNodes_fresh_append B (registerNodes [] A).1 [] hfresh
    rw [List.append_nil] at this
    simpa using congrArg Prod.fst this
  · have hfresh : ∀ m ∈ A, freshFor (registerNodes [] B).1 m := by
      intro m hm
      cases m with
      | item nm c p => simpa [isMenu] using hA _ hm
      | menu nm cs =>
        simp only [freshFor]
        intro hmem
        have h1 : nm ∈ allNamesL B :=
          keyB (menuNames_subset_topNames _ hmem)
        have h2 : nm ∈ allNamesL A :=
          topNames_subset_allNames A (memTop A _ hm)
        exact hdisj nm h2 h1
    have := registerNodes_fresh_append A (registerNodes [] B).1 [] hfresh
    rw [List.append_nil] at this
    simpa using congrArg Prod.fst this

/-- Witness for C8's amended claim at `A = [Menu "A"]`, `B = [Menu "B"]`. -/
theorem c8_disjoint_registration_appends_witness :
    (∀ m ∈ [MenuNode.menu "A" []], isMenu m = true) ∧
    (∀ m ∈ [MenuNode.menu "B" []], isMenu m = true) ∧
    (∀ n, n ∈ allNamesL [MenuNode.menu "A" []] →
       n ∉ allNamesL [MenuNode.menu "B" []]) ∧
    ((registerNodes (registerNodes [] [MenuNode.menu "A" []]).1
        [MenuNode.menu "B" []]).1
      = (registerNodes [] [MenuNode.menu "A" []]).1
          ++ (registerNodes [] [MenuNode.menu "B" []]).1) := by
  have hA : ∀ m ∈ [MenuNode.menu "A" []], isMenu m = true := by decide
  have hB : ∀ m ∈ [MenuNode.menu "B" []], isMenu m = true := by decide
  have hdisj : ∀ n, n ∈ allNamesL [MenuNode.menu "A" []] →
      n ∉ allNamesL [MenuNode.menu "B" []] := by
    intro n h
    simp [allNamesL, allNamesN] at h ⊢
    simp [h]
  exact ⟨hA, hB, hdisj,
    (c8_disjoint_registration_appends _ _ hA hB hdisj).1⟩

/-! ## The sibling-uniqueness invariant -/

/-- The empty forest satisfies the invariant. -/
theorem invL_nil : invL [] = true := by
  simp [invL, menuNames, itemNames, noDup, invEach]

/-- `invEach` distributes over append. -/
theorem invEach_append : ∀ (l1 l2 : List MenuNode),
    invEach (l1 ++ l2) = (invEach l1 && invEach l2)
  | [], l2 => by simp [invEach]
  | a :: l1, l2 => by
    simp only [List.cons_append, invEach, invEach_append l1 l2, Bool.and_assoc]

/-- Each member of an `invEach` list satisfies `invN`. -/
theorem invEach_mem : ∀ (L : List MenuNode), invEach L = true →
    ∀ m ∈ L, invN m = true
  | [], _, m, hm => by simp at hm
  | a :: L, h, m, hm => by
    simp only [invEach, Bool.and_eq_true] at h
    rcases List.mem_cons.mp hm with h1 | h1
    · exact h1 ▸ h.1
    · exact invEach_mem L h.2 m h1

/-- An element may be appended to a duplicate-free list it does not occur in. -/
theorem noDup_append_singleton : ∀ (xs : List String) (x : String),
    noDup xs = true → x ∉ xs → noDup (xs ++ [x]) = true
  | [], x, _, _ => by simp [noDup]
  | a :: xs, x, h, hx => by
    simp only [noDup, Bool.and_eq_true, Bool.not_eq_true', decide_eq_false_iff_not] at h
    simp only [List.mem_cons] at hx
    push_neg at hx
    have h1 : a ∉ xs ++ [x] := by
      simp only [List.mem_append, List.mem_singleton]
      rintro (hm | he)
      · exact h.1 hm
      · exact hx.1 he.symm
    simp only [List.cons_append, noDup, Bool.and_eq_true, Bool.not_eq_true',
      decide_eq_false_iff_not]
    exact ⟨h1, noDup_append_singleton xs x h.2 hx.2⟩

/-- A duplicate-free name list mentions each name at most once. -/
theorem noDup_count : ∀ (l : List String), noDup l = true →
    ∀ x, l.count x ≤ 1
  | [], _, x => by simp
  | a :: xs, h, x => by
    simp only [noDup, Bool.and_eq_true, Bool.not_eq_true', decide_eq_false_iff_not] at h
    by_cases hax : a = x
    · subst hax
      rw [List.count_cons_self, List.count_eq_zero.mpr h.1]
    · rw [List.count_cons_of_ne (fun he => hax he.symm)]
      exact noDup_count xs h.2 x

/-- MenuItem names of a sibling list are among its node names. -/
theorem itemNames_subset_topNames (L : List MenuNode) :
    itemNames L ⊆ topNames L := by
  intro n hn
  simp only [itemNames, List.mem_map, List.mem_filter] at hn
  obtain ⟨m, ⟨hm, _⟩, he⟩ := hn
  exact List.mem_map.mpr ⟨m, hm, he⟩

/-- `menuNames` is unchanged by the in-place children update. -/
theorem setFirst_menuNames : ∀ (r : List MenuNode) (n : String) (d : List MenuNode),
    menuNames (setFirstMenuChildren r n d) = menuNames r
  | [], _, _ => rfl
  | a :: l, n, d => by
    by_cases hc : (isMenu a && nodeName a == n) = true
    · cases a with
      | item _ _ _ => simp [isMenu] at hc
      | menu m cs =>
        have hmn : m = n := by simpa [isMenu, nodeName] using hc
        subst hmn
        rw [setFirstMenuChildren_cons_menu]
        simp
    · simp only [setFirstMenuChildren, if_neg hc]
      cases a with
      | menu m cs => simp [setFirst_menuNames l n d]
      | item m c p => simp [setFirst_menuNames l n d]

/-- `itemNames` is unchanged by the in-place children update. -/
theorem setFirst_itemNames : ∀ (r : List MenuNode) (n : String) (d : List MenuNode),
    itemNames (setFirstMenuChildren r n d) = itemNames r
  | [], _, _ => rfl
  | a :: l, n, d => by
    by_cases hc : (isMenu a && nodeName a == n) = true
    · cases a with
      | item _ _ _ => simp [isMenu] at hc
      | menu m cs =>
        have hmn : m = n := by simpa [isMenu, nodeName] using hc
        subst hmn
        rw [setFirstMenuChildren_cons_menu]
        simp
    · simp only [setFirstMenuChildren, if_neg hc]
      cases a with
      | menu m cs => simp [setFirst_itemNames l n d]
      | item m c p => simp [setFirst_itemNames l n d]

/-- The find loop returns the children of a Menu that is in the list. -/
theorem findMenuChildren_mem : ∀ (r : List MenuNode) (n : String)
    (cs : List MenuNode), findMenuChildren r n = some cs →
    MenuNode.menu n cs ∈ r
  | [], n, cs, h => by simp [findMenuChildren] at h
  | a :: l, n, cs, h => by
    by_cases hc : (isMenu a && nodeName a == n) = true
    · cases a with
      | item _ _ _ => simp [isMenu] at hc
      | menu m cs' =>
        have hmn : m = n := by simpa [isMenu, nodeName] using hc
        subst hmn
        rw [findMenuChildren_cons_menu] at h
        cases h
        exact List.mem_cons_self _ _
    · simp only [findMenuChildren, if_neg hc] at h
      exact List.mem_cons_of_mem _ (findMenuChildren_mem l n cs h)

/-- Replacing the found Menu's children with an invariant-satisfying list
preserves `invEach`. -/
theorem setFirst_invEach : ∀ (r : List MenuNode) (n : String) (d : List MenuNode),
    invEach r = true → invL d = true →
    invEach (setFirstMenuChildren r n d) = true
  | [], _, _, _, _ => by simp [setFirstMenuChildren, invEach]
  | a :: l, n, d, hr, hd => by
    simp only [invEach, Bool.and_eq_true] at hr
    by_cases hc : (isMenu a && nodeName a == n) = true
    · cases a with
      | item _ _ _ => simp [isMenu] at hc
      | menu m cs =>
        have hmn : m = n := by simpa [isMenu, nodeName] using hc
        subst hmn
        rw [setFirstMenuChildren_cons_menu]
        simp only [invEach, invN, Bool.and_eq_true]
        exact ⟨hd, hr.2⟩
    · simp only [setFirstMenuChildren, if_neg hc]
      simp only [invEach, Bool.and_eq_true]
      exact ⟨hr.1, setFirst_invEach l n d hr.2 hd⟩

/-- `_registerMenuItem` preserves the sibling-uniqueness invariant. -/
theorem registerMenuItem_inv (r : List MenuNode) (n c : String)
    (p : Option PluginInfo) (h : invL r = true) :
    invL (registerMenuItem r (.item n c p)).1 = true := by
  by_cases hm : n ∈ topNames r
  · rw [registerMenuItem_mem r n c p hm]
    exact h
  · rw [registerMenuItem_not_mem r n c p hm]
    simp only [invL, Bool.and_eq_true] at h
    obtain ⟨⟨h1, h2⟩, h3⟩ := h
    have hni : n ∉ itemNames r := fun hx => hm (itemNames_subset_topNames r hx)
    simp only [invL, Bool.and_eq_true]
    refine ⟨⟨?_, ?_⟩, ?_⟩
    · rw [menuNames_append]
      simpa using h1
    · rw [itemNames_append]
      exact noDup_append_singleton _ n h2 hni
    · rw [invEach_append]
      have hone : invEach [MenuNode.item n c p] = true := by
        simp [invEach, invN]
      rw [h3, hone]
      rfl

mutual
/-- `_registerMenu` preserves the sibling-uniqueness invariant. -/
theorem registerMenu_inv : ∀ (cs : List MenuNode) (r : List MenuNode) (n : String),
    invL r = true → invL (registerMenu r n cs).1 = true
  | cs, r, n, h => by
    cases hf : findMenuChildren r n with
    | some cs0 =>
      simp only [registerMenu, hf]
      have hmem := findMenuChildren_mem r n cs0 hf
      simp only [invL, Bool.and_eq_true] at h
      obtain ⟨⟨h1, h2⟩, h3⟩ := h
      have hcs0 : invL cs0 = true := by
        simpa only [invN] using invEach_mem r h3 _ hmem
      have hd : invL (registerNodes cs0 cs).1 = true :=
        registerNodes_inv cs cs0 hcs0
      simp only [invL, Bool.and_eq_true]
      exact ⟨⟨by rw [setFirst_menuNames]; exact h1,
        by rw [setFirst_itemNames]; exact h2⟩,
        setFirst_invEach r n _ h3 hd⟩
    | none =>
      simp only [registerMenu, hf]
      have hnm : n ∉ menuNames r := (findMenuChildren_eq_none_iff r n).mp hf
      have hd : invL (registerNodes [] cs).1 = true :=
        registerNodes_inv cs [] invL_nil
      simp only [invL, Bool.and_eq_true] at h
      obtain ⟨⟨h1, h2⟩, h3⟩ := h
      simp only [invL, Bool.and_eq_true]
      refine ⟨⟨?_, ?_⟩, ?_⟩
      · rw [menuNames_append]
        have he : menuNames [MenuNode.menu n (registerNodes [] cs).1] = [n] := by
          simp [menuNames, isMenu, nodeName, List.filter]
        rw [he]
        exact noDup_append_singleton _ n h1 hnm
      · rw [itemNames_append]
        simpa using h2
      · rw [invEach_append]
        have hone : invEach [MenuNode.menu n (registerNodes [] cs).1] = true := by
          simp [invEach, invN, hd]
        rw [h3, hone]
        rfl
termination_by cs r n => (sizeOf cs, 1)

/-- The merge loop preserves the sibling-uniqueness invariant. -/
theorem registerNodes_inv : ∀ (F r : List MenuNode),
    invL r = true → invL (registerNodes r F).1 = true
  | [], r, h => by simpa [registerNodes] using h
  | .menu n cs :: rest, r, h => by
    simp only [registerNodes]
    exact registerNodes_inv rest _ (registerMenu_inv cs r n h)
  | .item n c p :: rest, r, h => by
    simp only [registerNodes]
    exact registerNodes_inv rest _ (registerMenuItem_inv r n c p h)
termination_by F r => (sizeOf F, 0)
end

/-- A whole sequence of registrations preserves the invariant. -/
theorem registerAll_inv : ∀ (Fs : List (List MenuNode)) (r : List MenuNode),
    invL r = true → invL (registerAll r Fs) = true
  | [], r, h => h
  | F :: Fs, r, h => by
    have := registerAll_inv Fs (registerNodes r F).1 (registerNodes_inv F r h)
    simpa [registerAll] using this

/-- The invariant passes to every reachable sibling list. -/
theorem invL_sibling {r L : List MenuNode} (hs : SiblingList r L)
    (h : invL r = true) : invL L = true := by
  induction hs with
  | top => exact h
  | child hs hmem ih =>
    simp only [invL, Bool.and_eq_true] at ih
    simpa only [invN] using invEach_mem _ ih.2 _ hmem

/-- C9: starting from the empty Registry, after any sequence of `register`
calls with parser-validated forests, every sibling list reachable in the
Registry's forest holds at most one Menu with any given name and at most
one MenuItem with any given name. -/
theorem c9_sibling_name_uniqueness (Fs : List (List MenuNode))
    (_hval : ∀ F ∈ Fs, getError F = none ∧ ∀ m ∈ F, isMenu m = true)
    (L : List MenuNode) (hL : SiblingList (registerAll [] Fs) L) :
    (∀ n, (menuNames L).count n ≤ 1) ∧ (∀ n, (itemNames L).count n ≤ 1) := by
  have hinv : invL (registerAll [] Fs) = true := registerAll_inv Fs [] invL_nil
  have hiL : invL L = true := invL_sibling hL hinv
  simp only [invL, Bool.and_eq_true] at hiL
  exact ⟨noDup_count _ hiL.1.1, noDup_count _ hiL.1.2⟩

/-- Witness for C9: one validated contribution, uniqueness read off the
top-level sibling list of the resulting Registry. -/
theorem c9_sibling_name_uniqueness_witness :
    (∀ F ∈ [[MenuNode.menu "File" [MenuNode.item "New" "file.new" (some "P")]]],
       getError F = none ∧ ∀ m ∈ F, isMenu m = true) ∧
    ((∀ n, (menuNames (registerAll []
        [[MenuNode.menu "File" [MenuNode.item "New" "file.new" (some "P")]]])).count n ≤ 1) ∧
     (∀ n, (itemNames (registerAll []
        [[MenuNode.menu "File" [MenuNode.item "New" "file.new" (some "P")]]])).count n ≤ 1)) := by
  have hval : ∀ F ∈ [[MenuNode.menu "File" [MenuNode.item "New" "file.new" (some "P")]]],
      getError F = none ∧ ∀ m ∈ F, isMenu m = true := by
    intro F hF
    simp only [List.mem_singleton] at hF
    subst hF
    refine ⟨?_, by decide⟩
    have e1 : isEmpty "File" = true := by decide
    have e2 : isEmpty "New" = true := by decide
    have e3 : isEmpty "file.new" = true := by decide
    unfold getError
    simp [getErrorL, getErrorN, e1, e2, e3]
  exact ⟨hval, c9_sibling_name_uniqueness _ hval _ (SiblingList.top _)⟩

end Whide
